import Mathlib

/-!
Shallow embedding of the ArbSh bidirectional-text engine
(src/src/i18n/bidi/bidi.c and src/src/utf8.c) and proofs about it.

Bytes are modelled as natural numbers (the C code only ever inspects the
low 8 bits of a `char` through masks, so sign extension is irrelevant).
Buffers are `List Nat`; reading past the end of a buffer yields the
default byte 0 via `List.getD`. Machine integers that stay small and
non-negative in every execution (codepoints, levels, offsets) are `Nat`;
`override_status`, which the C keeps in {-1, 0, 1}, is `Int`.
-/

namespace ArbSh

/-! ## Character classifier (bidi.c lines 13-40, 59-125) -/

def BIDI_TYPE_L : Nat := 0
def BIDI_TYPE_R : Nat := 1
def BIDI_TYPE_EN : Nat := 2
def BIDI_TYPE_ES : Nat := 3
def BIDI_TYPE_ET : Nat := 4
def BIDI_TYPE_AN : Nat := 5
def BIDI_TYPE_CS : Nat := 6
def BIDI_TYPE_B : Nat := 7
def BIDI_TYPE_S : Nat := 8
def BIDI_TYPE_WS : Nat := 9
def BIDI_TYPE_ON : Nat := 10
def BIDI_TYPE_NSM : Nat := 11
def BIDI_TYPE_AL : Nat := 12
def BIDI_TYPE_LRE : Nat := 13
def BIDI_TYPE_RLE : Nat := 14
def BIDI_TYPE_PDF : Nat := 15
def BIDI_TYPE_LRO : Nat := 16
def BIDI_TYPE_RLO : Nat := 17
def BIDI_TYPE_LRI : Nat := 18
def BIDI_TYPE_RLI : Nat := 19
def BIDI_TYPE_FSI : Nat := 20
def BIDI_TYPE_PDI : Nat := 21
def BIDI_TYPE_LRM : Nat := 22
def BIDI_TYPE_RLM : Nat := 23

def MAX_DEPTH : Nat := 125

/-- bidi.c `get_char_type` (lines 59-125): ordered range checks, first
match wins. The codepoint argument is the decoded Unicode scalar, always
non-negative in every caller, so `Nat` is used. -/
def get_char_type (codepoint : Nat) : Nat :=
  if (0x0600 ≤ codepoint ∧ codepoint ≤ 0x06FF) ∨
     (0x0750 ≤ codepoint ∧ codepoint ≤ 0x077F) ∨
     (0x08A0 ≤ codepoint ∧ codepoint ≤ 0x08FF) then BIDI_TYPE_AL
  else if 0x0590 ≤ codepoint ∧ codepoint ≤ 0x05FF then BIDI_TYPE_R
  else if 0x0030 ≤ codepoint ∧ codepoint ≤ 0x0039 then BIDI_TYPE_EN
  else if (0x0660 ≤ codepoint ∧ codepoint ≤ 0x0669) ∨
          (0x06F0 ≤ codepoint ∧ codepoint ≤ 0x06F9) then BIDI_TYPE_AN
  else if codepoint = 0x200E then BIDI_TYPE_LRM
  else if codepoint = 0x200F then BIDI_TYPE_RLM
  else if codepoint = 0x202A then BIDI_TYPE_LRE
  else if codepoint = 0x202B then BIDI_TYPE_RLE
  else if codepoint = 0x202C then BIDI_TYPE_PDF
  else if codepoint = 0x202D then BIDI_TYPE_LRO
  else if codepoint = 0x202E then BIDI_TYPE_RLO
  else if codepoint = 0x2066 then BIDI_TYPE_LRI
  else if codepoint = 0x2067 then BIDI_TYPE_RLI
  else if codepoint = 0x2068 then BIDI_TYPE_FSI
  else if codepoint = 0x2069 then BIDI_TYPE_PDI
  else if codepoint = 0x0020 ∨ codepoint = 0x0009 ∨ codepoint = 0x00A0 then BIDI_TYPE_WS
  else if codepoint = 0x000A ∨ codepoint = 0x000D ∨ codepoint = 0x2029 then BIDI_TYPE_B
  else if codepoint = 0x0009 ∨ codepoint = 0x001F then BIDI_TYPE_S
  else if codepoint < 0x0080 then BIDI_TYPE_L
  else BIDI_TYPE_ON

/-! ## UTF-8 codec (utf8.c) -/

/-- utf8.c `get_utf8_char_length` (lines 9-21). The C masks only look at
the low 8 bits of the byte. -/
def get_utf8_char_length (first_byte : Nat) : Nat :=
  if first_byte &&& 0x80 = 0 then 1
  else if first_byte &&& 0xE0 = 0xC0 then 2
  else if first_byte &&& 0xF0 = 0xE0 then 3
  else if first_byte &&& 0xF8 = 0xF0 then 4
  else 1

/-- utf8.c `utf8_to_codepoint` (lines 158-192). The C writes through an
out-pointer and returns 1 on success / 0 on failure; modelled as
`Option Nat` (`none` = the C `return 0` at line 188). The null-pointer
guard is dropped (buffers in the model are always valid). The function
reads exactly `length` bytes of the buffer, matching the callers that
memcpy `char_len` bytes into `utf8_buf`. -/
def utf8_to_codepoint (utf8_char : List Nat) : Option Nat :=
  let length := get_utf8_char_length (utf8_char.getD 0 0)
  if length = 1 then
    some (utf8_char.getD 0 0)
  else if length = 2 then
    some ((((utf8_char.getD 0 0) &&& 0x1F) <<< 6) |||
          ((utf8_char.getD 1 0) &&& 0x3F))
  else if length = 3 then
    some ((((utf8_char.getD 0 0) &&& 0x0F) <<< 12) |||
          (((utf8_char.getD 1 0) &&& 0x3F) <<< 6) |||
          ((utf8_char.getD 2 0) &&& 0x3F))
  else if length = 4 then
    some ((((utf8_char.getD 0 0) &&& 0x07) <<< 18) |||
          (((utf8_char.getD 1 0) &&& 0x3F) <<< 12) |||
          (((utf8_char.getD 2 0) &&& 0x3F) <<< 6) |||
          ((utf8_char.getD 3 0) &&& 0x3F))
  else
    none

/-- utf8.c `codepoint_to_utf8` (lines 201-237): returns the encoded bytes
(the C writes them into a caller buffer and returns the count; the count
is the list length here). Codepoints ≥ 0x110000 encode as the single
byte `'?'` = 0x3F. -/
def codepoint_to_utf8 (codepoint : Nat) : List Nat :=
  if codepoint < 0x80 then
    [codepoint]
  else if codepoint < 0x800 then
    [0xC0 ||| (codepoint >>> 6), 0x80 ||| (codepoint &&& 0x3F)]
  else if codepoint < 0x10000 then
    [0xE0 ||| (codepoint >>> 12), 0x80 ||| ((codepoint >>> 6) &&& 0x3F),
     0x80 ||| (codepoint &&& 0x3F)]
  else if codepoint < 0x110000 then
    [0xF0 ||| (codepoint >>> 18), 0x80 ||| ((codepoint >>> 12) &&& 0x3F),
     0x80 ||| ((codepoint >>> 6) &&& 0x3F), 0x80 ||| (codepoint &&& 0x3F)]
  else
    [0x3F]

/-- utf8.c `read_utf8_char` (lines 106-123): returns the length of the
UTF-8 character at the start of the buffer, or 0 if a continuation byte
does not match 10xxxxxx or the buffer is too short. `max_size` is an
`int` in C with a `<= 0` guard; callers pass sizes, so `Nat` with a
`= 0` guard is equivalent. The continuation-byte loop
`for (i = 1; i < char_length; i++)` is the `List.all` over
`[1, ..., char_length - 1]`. -/
def read_utf8_char (buffer : List Nat) (max_size : Nat) : Nat :=
  if max_size = 0 then 0
  else if get_utf8_char_length (buffer.getD 0 0) > max_size then 0
  else if (List.range' 1 (get_utf8_char_length (buffer.getD 0 0) - 1)).all
      (fun j => (buffer.getD j 0) &&& 0xC0 = 0x80) then
    get_utf8_char_length (buffer.getD 0 0)
  else 0

def encodeList (cps : List Nat) : List Nat :=
  cps.flatMap codepoint_to_utf8

/-! ## Arithmetic facts about the codec -/

theorem lor_shiftLeft_add (a m k : Nat) (h : m < 2 ^ k) :
    (a <<< k) ||| m = 2 ^ k * a + m := by
  apply Nat.eq_of_testBit_eq
  intro i
  rw [Nat.testBit_lor, Nat.testBit_shiftLeft, Nat.testBit_mul_pow_two_add a h i]
  rcases Nat.lt_or_ge i k with hik | hik
  · have h1 : ¬ i ≥ k := Nat.not_le.2 hik
    simp [hik, h1]
  · have h2 : m.testBit i = false :=
      Nat.testBit_eq_false_of_lt
        (lt_of_lt_of_le h (Nat.pow_le_pow_right (by omega) hik))
    simp [hik, h2, Nat.not_lt.2 hik]

theorem lor_eq_add (a m k : Nat) (ha : 2 ^ k ∣ a) (hm : m < 2 ^ k) :
    a ||| m = a + m := by
  obtain ⟨q, hq⟩ := ha
  subst hq
  have hs : 2 ^ k * q = q <<< k := by rw [Nat.shiftLeft_eq]; ring
  rw [hs, lor_shiftLeft_add q m k hm, ← hs]

theorem byte_len_ascii : ∀ b, b < 128 → get_utf8_char_length b = 1 := by decide

theorem byte_len_lead2 : ∀ d, d < 32 → get_utf8_char_length (0xC0 + d) = 2 := by decide

theorem byte_len_lead3 : ∀ d, d < 16 → get_utf8_char_length (0xE0 + d) = 3 := by decide

theorem byte_len_lead4 : ∀ d, d < 8 → get_utf8_char_length (0xF0 + d) = 4 := by decide

theorem byte_cont_mask : ∀ m, m < 64 → (0x80 + m) &&& 0xC0 = 0x80 := by decide

theorem byte_ascii_not_cont : ∀ b, b < 128 → b &&& 0xC0 ≠ 0x80 := by decide

theorem byte_lead2_not_cont : ∀ d, d < 32 → (0xC0 + d) &&& 0xC0 ≠ 0x80 := by decide

theorem byte_lead3_not_cont : ∀ d, d < 16 → (0xE0 + d) &&& 0xC0 ≠ 0x80 := by decide

theorem byte_lead4_not_cont : ∀ d, d < 8 → (0xF0 + d) &&& 0xC0 ≠ 0x80 := by decide

theorem byte_lead2_payload : ∀ d, d < 32 → (0xC0 + d) &&& 0x1F = d := by decide

theorem byte_lead3_payload : ∀ d, d < 16 → (0xE0 + d) &&& 0x0F = d := by decide

theorem byte_lead4_payload : ∀ d, d < 8 → (0xF0 + d) &&& 0x07 = d := by decide

theorem byte_cont_payload : ∀ m, m < 64 → (0x80 + m) &&& 0x3F = m := by decide

theorem lor_0xC0 : ∀ d, d < 64 → 0xC0 ||| d = 0xC0 + d := by decide

theorem lor_0x80 : ∀ m, m < 64 → 0x80 ||| m = 0x80 + m := by decide

theorem lor_0xE0 : ∀ d, d < 16 → 0xE0 ||| d = 0xE0 + d := by decide

theorem lor_0xF0 : ∀ d, d < 8 → 0xF0 ||| d = 0xF0 + d := by decide

theorem land_0x3F (c : Nat) : c &&& 0x3F = c % 64 := by
  have := Nat.and_pow_two_sub_one_eq_mod c 6
  norm_num at this
  exact this

theorem shiftRight_div (c k : Nat) : c >>> k = c / 2 ^ k :=
  Nat.shiftRight_eq_div_pow c k

/-- The four shapes of `codepoint_to_utf8` output for valid codepoints. -/
theorem codepoint_to_utf8_eq (c : Nat) (h : c < 0x110000) :
    codepoint_to_utf8 c =
      if c < 0x80 then [c]
      else if c < 0x800 then [0xC0 + c / 64, 0x80 + c % 64]
      else if c < 0x10000 then
        [0xE0 + c / 4096, 0x80 + c / 64 % 64, 0x80 + c % 64]
      else
        [0xF0 + c / 262144, 0x80 + c / 4096 % 64, 0x80 + c / 64 % 64,
         0x80 + c % 64] := by
  unfold codepoint_to_utf8
  split_ifs with h1 h2 h3
  · rfl
  · rw [shiftRight_div, land_0x3F]
    norm_num
    rw [lor_0xC0 (c / 64) (by omega), lor_0x80 (c % 64) (by omega)]
    exact ⟨rfl, rfl⟩
  · rw [shiftRight_div, shiftRight_div, land_0x3F, land_0x3F]
    norm_num
    constructor
    · rw [lor_0xE0 (c / 4096) (by omega)]
    constructor
    · rw [lor_0x80 (c / 64 % 64) (by omega)]
    · rw [lor_0x80 (c % 64) (by omega)]
  · rw [shiftRight_div, shiftRight_div, shiftRight_div, land_0x3F,
      land_0x3F, land_0x3F]
    norm_num
    refine ⟨?_, ?_, ?_, ?_⟩
    · rw [lor_0xF0 (c / 262144) (by omega)]
    · rw [lor_0x80 (c / 4096 % 64) (by omega)]
    · rw [lor_0x80 (c / 64 % 64) (by omega)]
    · rw [lor_0x80 (c % 64) (by omega)]

theorem codepoint_to_utf8_length (c : Nat) :
    1 ≤ (codepoint_to_utf8 c).length ∧ (codepoint_to_utf8 c).length ≤ 4 := by
  unfold codepoint_to_utf8
  split_ifs <;> simp

theorem codepoint_to_utf8_ne_nil (c : Nat) : codepoint_to_utf8 c ≠ [] := by
  unfold codepoint_to_utf8
  split_ifs <;> simp

/-- The declared length read from the lead byte of an encoded codepoint
matches the number of bytes produced by the encoder. -/
theorem get_utf8_char_length_encode (c : Nat) (h : c < 0x110000) :
    get_utf8_char_length ((codepoint_to_utf8 c).getD 0 0) =
      (codepoint_to_utf8 c).length := by
  rw [codepoint_to_utf8_eq c h]
  split_ifs with h1 h2 h3
  · simpa using byte_len_ascii c h1
  · simpa using byte_len_lead2 (c / 64) (by omega)
  · simpa using byte_len_lead3 (c / 4096) (by omega)
  · simpa using byte_len_lead4 (c / 262144) (by omega)

/-- UTF-8 round-trip for all codepoints below 0x110000. -/
theorem utf8_roundtrip (c : Nat) (h : c < 0x110000) :
    utf8_to_codepoint (codepoint_to_utf8 c) = some c := by
  rw [codepoint_to_utf8_eq c h]
  unfold utf8_to_codepoint
  split_ifs with h1 h2 h3
  · simp [byte_len_ascii c h1]
  · have e2 := byte_len_lead2 (c / 64) (by omega)
    simp only [List.getD_cons_zero, List.getD_cons_succ, e2]
    norm_num
    rw [byte_lead2_payload (c / 64) (by omega),
      byte_cont_payload (c % 64) (by omega), Nat.shiftLeft_eq]
    rw [lor_eq_add (c / 64 * 2 ^ 6) (c % 64) 6 (Dvd.intro _ (mul_comm _ _)) (by omega)]
    norm_num
    omega
  · have e3 := byte_len_lead3 (c / 4096) (by omega)
    simp only [List.getD_cons_zero, List.getD_cons_succ, e3]
    norm_num
    rw [byte_lead3_payload (c / 4096) (by omega),
      byte_cont_payload (c / 64 % 64) (by omega),
      byte_cont_payload (c % 64) (by omega), Nat.shiftLeft_eq,
      Nat.shiftLeft_eq]
    rw [lor_eq_add (c / 4096 * 2 ^ 12) (c / 64 % 64 * 2 ^ 6) 12
      (Dvd.intro _ (mul_comm _ _)) (by omega)]
    rw [lor_eq_add (c / 4096 * 2 ^ 12 + c / 64 % 64 * 2 ^ 6) (c % 64) 6
      (by norm_num; omega) (by omega)]
    norm_num
    omega
  · have e4 := byte_len_lead4 (c / 262144) (by omega)
    simp only [List.getD_cons_zero, List.getD_cons_succ, e4]
    norm_num
    rw [byte_lead4_payload (c / 262144) (by omega),
      byte_cont_payload (c / 4096 % 64) (by omega),
      byte_cont_payload (c / 64 % 64) (by omega),
      byte_cont_payload (c % 64) (by omega), Nat.shiftLeft_eq,
      Nat.shiftLeft_eq, Nat.shiftLeft_eq]
    rw [lor_eq_add (c / 262144 * 2 ^ 18) (c / 4096 % 64 * 2 ^ 12) 18
      (Dvd.intro _ (mul_comm _ _)) (by omega)]
    rw [lor_eq_add (c / 262144 * 2 ^ 18 + c / 4096 % 64 * 2 ^ 12)
      (c / 64 % 64 * 2 ^ 6) 12 (by norm_num; omega) (by omega)]
    rw [lor_eq_add
      (c / 262144 * 2 ^ 18 + c / 4096 % 64 * 2 ^ 12 + c / 64 % 64 * 2 ^ 6)
      (c % 64) 6 (by norm_num; omega) (by omega)]
    norm_num
    omega

/-! ## Run segmentation (bidi.c `process_runs`, lines 156-364)

The C while-loop is modelled with an explicit fuel argument: every
iteration advances `i` by `char_len ≥ 1`, so the loop body runs at most
`length` times and fuel `length` makes the fuel-exhaustion branch
unreachable. Run-node allocation failure (`malloc` returning NULL) is
not modelled: the model always has memory. -/

structure BidiRun where
  start : Nat
  length : Nat
  level : Nat
deriving Repr, DecidableEq

structure BidiState where
  runs : List BidiRun
  current_level : Nat
  run_start : Nat
  i : Nat
  stack : List Nat
  override_status : Int
  isolate_status : Bool
deriving Repr, DecidableEq

/-- C `(current_level + 2) & ~1` on a non-negative int: clear the low
bit of `n + 2`. -/
def levelEven (n : Nat) : Nat := (n + 2) - (n + 2) % 2

/-- C `(current_level + 1) | 1` on a non-negative int: set the low bit
of `n + 1`. -/
def levelOdd (n : Nat) : Nat := (n + 1) - (n + 1) % 2 + 1

/-- bidi.c lines 316-335 (the `create_new_run` block) followed by
`i += char_len`. `matLevel` is the value `current_level` holds when the
run node is created (the C switch may have just overwritten it);
`newLevel` is the local variable `new_level` assigned to `current_level`
afterwards. The stack top is the head of `stack`; C `stack_top` equals
`stack.length - 1`. -/
def boundary (st : BidiState) (char_len matLevel newLevel : Nat)
    (stack : List Nat) (ov : Int) (iso : Bool) : BidiState :=
  { runs := if st.run_start < st.i then
      st.runs ++ [⟨st.run_start, st.i - st.run_start, matLevel⟩]
    else st.runs
    current_level := newLevel
    run_start := st.i
    i := st.i + char_len
    stack := stack
    override_status := ov
    isolate_status := iso }

/-- Loop iteration with `create_new_run = 0`: only `i` advances. -/
def advance (st : BidiState) (char_len : Nat) : BidiState :=
  { st with i := st.i + char_len }

/-- One iteration of the bidi.c lines 173-338 loop body, after the
codepoint has been decoded. The push guard `stack_top < MAX_DEPTH - 1`
is `stack.length < MAX_DEPTH`; the pop guard `stack_top > 0` is
`1 < stack.length`. -/
def stepChar (codepoint char_len : Nat) (st : BidiState) : BidiState :=
  let char_type := get_char_type codepoint
  if char_type = BIDI_TYPE_LRE then
    if st.stack.length < MAX_DEPTH then
      boundary st char_len (levelEven st.current_level) st.current_level
        (levelEven st.current_level :: st.stack) st.override_status
        st.isolate_status
    else advance st char_len
  else if char_type = BIDI_TYPE_RLE then
    if st.stack.length < MAX_DEPTH then
      boundary st char_len (levelOdd st.current_level) st.current_level
        (levelOdd st.current_level :: st.stack) st.override_status
        st.isolate_status
    else advance st char_len
  else if char_type = BIDI_TYPE_PDF then
    if 1 < st.stack.length then
      boundary st char_len (st.stack.tail.headD 0) st.current_level
        st.stack.tail st.override_status st.isolate_status
    else advance st char_len
  else if char_type = BIDI_TYPE_LRO then
    if st.stack.length < MAX_DEPTH then
      boundary st char_len (levelEven st.current_level) st.current_level
        (levelEven st.current_level :: st.stack) 0 st.isolate_status
    else advance st char_len
  else if char_type = BIDI_TYPE_RLO then
    if st.stack.length < MAX_DEPTH then
      boundary st char_len (levelOdd st.current_level) st.current_level
        (levelOdd st.current_level :: st.stack) 1 st.isolate_status
    else advance st char_len
  else if char_type = BIDI_TYPE_LRI then
    if st.stack.length < MAX_DEPTH then
      boundary st char_len (levelEven st.current_level) st.current_level
        (levelEven st.current_level :: st.stack) st.override_status true
    else advance st char_len
  else if char_type = BIDI_TYPE_RLI then
    if st.stack.length < MAX_DEPTH then
      boundary st char_len (levelOdd st.current_level) st.current_level
        (levelOdd st.current_level :: st.stack) st.override_status true
    else advance st char_len
  else if char_type = BIDI_TYPE_FSI then
    if st.stack.length < MAX_DEPTH then
      boundary st char_len (levelOdd st.current_level) st.current_level
        (levelOdd st.current_level :: st.stack) st.override_status true
    else advance st char_len
  else if char_type = BIDI_TYPE_PDI then
    if st.isolate_status ∧ 1 < st.stack.length then
      boundary st char_len (st.stack.tail.headD 0) st.current_level
        st.stack.tail st.override_status false
    else advance st char_len
  else
    let char_type2 :=
      if st.override_status = 0 then BIDI_TYPE_L
      else if st.override_status = 1 then BIDI_TYPE_R
      else char_type
    let new_level :=
      if char_type2 = BIDI_TYPE_AL ∨ char_type2 = BIDI_TYPE_R then
        levelOdd st.current_level
      else if char_type2 = BIDI_TYPE_L then levelEven st.current_level
      else st.current_level
    if new_level ≠ st.current_level then
      boundary st char_len st.current_level new_level st.stack
        st.override_status st.isolate_status
    else advance st char_len

/-- bidi.c lines 340-352: materialize the final pending run. -/
def finalize (st : BidiState) : List BidiRun :=
  if st.run_start < st.i then
    st.runs ++ [⟨st.run_start, st.i - st.run_start, st.current_level⟩]
  else st.runs

def processRunsAux (text : List Nat) (length : Nat) :
    Nat → BidiState → List BidiRun
  | 0, st => finalize st
  | fuel + 1, st =>
    if st.i < length then
      if get_utf8_char_length (text.getD st.i 0) = 0 then finalize st
      else
        match utf8_to_codepoint ((text.drop st.i).take
            (get_utf8_char_length (text.getD st.i 0))) with
        | none => finalize st
        | some codepoint =>
          processRunsAux text length fuel
            (stepChar codepoint (get_utf8_char_length (text.getD st.i 0)) st)
    else finalize st

/-- bidi.c `process_runs` (lines 156-364). -/
def process_runs (text : List Nat) (length : Nat) (base_level : Nat) :
    List BidiRun :=
  processRunsAux text length length
    ⟨[], base_level, 0, 0, [base_level], -1, false⟩

/-! ## Run reordering (bidi.c `reorder_runs`, lines 375-470) -/

/-- bidi.c lines 406-412: scan backwards over continuation bytes to find
the start of the previous UTF-8 character. The signed C comparison
`pos - prev_char_len >= run->start` becomes
`prev_char_len ≤ pos ∧ startPos ≤ pos - prev_char_len`. As in the C,
the result can reach 5 on malformed input (four continuation bytes in a
row). -/
def scanBack (text : List Nat) (startPos pos : Nat) : Nat :=
  if 1 ≤ pos ∧ startPos ≤ pos - 1 ∧ (text.getD (pos - 1) 0) &&& 0xC0 = 0x80 then
    if 2 ≤ pos ∧ startPos ≤ pos - 2 ∧ (text.getD (pos - 2) 0) &&& 0xC0 = 0x80 then
      if 3 ≤ pos ∧ startPos ≤ pos - 3 ∧ (text.getD (pos - 3) 0) &&& 0xC0 = 0x80 then
        if 4 ≤ pos ∧ startPos ≤ pos - 4 ∧ (text.getD (pos - 4) 0) &&& 0xC0 = 0x80 then 5
        else 4
      else 3
    else 2
  else 1

/-- The copy-unless-directional-formatting test of bidi.c lines 423-427
and 452-456. -/
def copyCheck (char_type : Nat) : Prop :=
  char_type ≠ BIDI_TYPE_LRE ∧ char_type ≠ BIDI_TYPE_RLE ∧
  char_type ≠ BIDI_TYPE_PDF ∧ char_type ≠ BIDI_TYPE_LRO ∧
  char_type ≠ BIDI_TYPE_RLO ∧ char_type ≠ BIDI_TYPE_LRI ∧
  char_type ≠ BIDI_TYPE_RLI ∧ char_type ≠ BIDI_TYPE_FSI ∧
  char_type ≠ BIDI_TYPE_PDI

instance (char_type : Nat) : Decidable (copyCheck char_type) := by
  unfold copyCheck
  infer_instance

/-- bidi.c lines 400-432, the odd-level (RTL) branch: walk the run
backwards one character at a time, copying the bytes of every character
whose type is not directional formatting. Each step decreases `pos` by
`prev_char_len ≥ 1`, so fuel `pos - startPos` suffices. A decode failure
is the C `continue` (no copy). -/
def runBwd (text : List Nat) (startPos : Nat) :
    Nat → Nat → List Nat
  | 0, _ => []
  | fuel + 1, pos =>
    if startPos < pos then
      match utf8_to_codepoint
          ((text.drop (pos - scanBack text startPos pos)).take
            (scanBack text startPos pos)) with
      | none => runBwd text startPos fuel (pos - scanBack text startPos pos)
      | some codepoint =>
        (if copyCheck (get_char_type codepoint) then
          (text.drop (pos - scanBack text startPos pos)).take
            (scanBack text startPos pos)
        else []) ++ runBwd text startPos fuel (pos - scanBack text startPos pos)
    else []

/-- bidi.c lines 434-464, the even-level (LTR) branch: walk forwards.
The C ignores the return value of `utf8_to_codepoint` here; `codepoint`
keeps its initializer 0 on failure, hence `Option.getD 0`. -/
def runFwd (text : List Nat) (endPos : Nat) :
    Nat → Nat → List Nat
  | 0, _ => []
  | fuel + 1, pos =>
    if pos < endPos then
      (if copyCheck (get_char_type ((utf8_to_codepoint ((text.drop pos).take
            (get_utf8_char_length (text.getD pos 0)))).getD 0)) then
        (text.drop pos).take (get_utf8_char_length (text.getD pos 0))
      else []) ++
        runFwd text endPos fuel (pos + get_utf8_char_length (text.getD pos 0))
    else []

/-- The per-run copy of bidi.c lines 397-464. -/
def reorderRun (text : List Nat) (run : BidiRun) : List Nat :=
  if run.level % 2 = 1 then
    runBwd text run.start run.length (run.start + run.length)
  else
    runFwd text (run.start + run.length) run.length run.start

/-- bidi.c `reorder_runs` (lines 375-470): find the maximum level, then
for each level from the maximum down to 0 copy the runs at that level in
list order. Returns the written bytes (the C returns `out_pos`, their
count, and writes them to `output`). The `length` parameter is unused in
the C (`(void)length`). -/
def reorder_runs (runs : List BidiRun) (text : List Nat) (length : Nat) :
    List Nat :=
  ((List.range
      ((runs.foldl (fun m r => if m < r.level then r.level else m) 0) + 1)).reverse).flatMap
    (fun level =>
      (runs.filter (fun r => r.level = level)).flatMap (reorderRun text))

/-- bidi.c `process_bidirectional_text` (lines 481-503). Returns the
byte count together with the written bytes. The C returns 0 without
writing if `text`/`output` is NULL or `length <= 0` (null pointers are
not modelled), or if `process_runs` returned no runs. -/
def process_bidirectional_text (text : List Nat) (length : Nat)
    (is_rtl : Bool) : Nat × List Nat :=
  if length = 0 then (0, [])
  else if process_runs text length (if is_rtl then 1 else 0) = [] then (0, [])
  else
    ((reorder_runs (process_runs text length (if is_rtl then 1 else 0))
        text length).length,
      reorder_runs (process_runs text length (if is_rtl then 1 else 0))
        text length)

/-! ## Codepoint-level view of the segmentation loop

For proofs over well-formed UTF-8 input (the byte image of a codepoint
list), the byte-level state machine is mirrored by a machine that works
on codepoints and groups them; `gPhi` maps its state to the byte-level
`BidiState`, and one `stepChar` on the image corresponds to one `gstep`. -/

structure GState where
  groups : List (List Nat × Nat)
  pending : List Nat
  current_level : Nat
  stack : List Nat
  override_status : Int
  isolate_status : Bool
deriving Repr, DecidableEq

def gboundary (gs : GState) (c : Nat) (matLevel newLevel : Nat)
    (stack : List Nat) (ov : Int) (iso : Bool) : GState :=
  { groups := if gs.pending = [] then gs.groups
      else gs.groups ++ [(gs.pending, matLevel)]
    pending := [c]
    current_level := newLevel
    stack := stack
    override_status := ov
    isolate_status := iso }

def gadvance (gs : GState) (c : Nat) : GState :=
  { gs with pending := gs.pending ++ [c] }

def gstep (c : Nat) (gs : GState) : GState :=
  let char_type := get_char_type c
  if char_type = BIDI_TYPE_LRE then
    if gs.stack.length < MAX_DEPTH then
      gboundary gs c (levelEven gs.current_level) gs.current_level
        (levelEven gs.current_level :: gs.stack) gs.override_status
        gs.isolate_status
    else gadvance gs c
  else if char_type = BIDI_TYPE_RLE then
    if gs.stack.length < MAX_DEPTH then
      gboundary gs c (levelOdd gs.current_level) gs.current_level
        (levelOdd gs.current_level :: gs.stack) gs.override_status
        gs.isolate_status
    else gadvance gs c
  else if char_type = BIDI_TYPE_PDF then
    if 1 < gs.stack.length then
      gboundary gs c (gs.stack.tail.headD 0) gs.current_level
        gs.stack.tail gs.override_status gs.isolate_status
    else gadvance gs c
  else if char_type = BIDI_TYPE_LRO then
    if gs.stack.length < MAX_DEPTH then
      gboundary gs c (levelEven gs.current_level) gs.current_level
        (levelEven gs.current_level :: gs.stack) 0 gs.isolate_status
    else gadvance gs c
  else if char_type = BIDI_TYPE_RLO then
    if gs.stack.length < MAX_DEPTH then
      gboundary gs c (levelOdd gs.current_level) gs.current_level
        (levelOdd gs.current_level :: gs.stack) 1 gs.isolate_status
    else gadvance gs c
  else if char_type = BIDI_TYPE_LRI then
    if gs.stack.length < MAX_DEPTH then
      gboundary gs c (levelEven gs.current_level) gs.current_level
        (levelEven gs.current_level :: gs.stack) gs.override_status true
    else gadvance gs c
  else if char_type = BIDI_TYPE_RLI then
    if gs.stack.length < MAX_DEPTH then
      gboundary gs c (levelOdd gs.current_level) gs.current_level
        (levelOdd gs.current_level :: gs.stack) gs.override_status true
    else gadvance gs c
  else if char_type = BIDI_TYPE_FSI then
    if gs.stack.length < MAX_DEPTH then
      gboundary gs c (levelOdd gs.current_level) gs.current_level
        (levelOdd gs.current_level :: gs.stack) gs.override_status true
    else gadvance gs c
  else if char_type = BIDI_TYPE_PDI then
    if gs.isolate_status ∧ 1 < gs.stack.length then
      gboundary gs c (gs.stack.tail.headD 0) gs.current_level
        gs.stack.tail gs.override_status false
    else gadvance gs c
  else
    let char_type2 :=
      if gs.override_status = 0 then BIDI_TYPE_L
      else if gs.override_status = 1 then BIDI_TYPE_R
      else char_type
    let new_level :=
      if char_type2 = BIDI_TYPE_AL ∨ char_type2 = BIDI_TYPE_R then
        levelOdd gs.current_level
      else if char_type2 = BIDI_TYPE_L then levelEven gs.current_level
      else gs.current_level
    if new_level ≠ gs.current_level then
      gboundary gs c gs.current_level new_level gs.stack
        gs.override_status gs.isolate_status
    else gadvance gs c

def gfold : List Nat → GState → GState
  | [], gs => gs
  | c :: cs, gs => gfold cs (gstep c gs)

def gfinal (gs : GState) : List (List Nat × Nat) :=
  if gs.pending = [] then gs.groups
  else gs.groups ++ [(gs.pending, gs.current_level)]

def grpBytes (groups : List (List Nat × Nat)) : Nat :=
  (groups.map (fun g => (encodeList g.1).length)).sum

def toRuns (off : Nat) : List (List Nat × Nat) → List BidiRun
  | [] => []
  | g :: gl =>
    ⟨off, (encodeList g.1).length, g.2⟩ ::
      toRuns (off + (encodeList g.1).length) gl

def gPhi (gs : GState) : BidiState :=
  { runs := toRuns 0 gs.groups
    current_level := gs.current_level
    run_start := grpBytes gs.groups
    i := grpBytes gs.groups + (encodeList gs.pending).length
    stack := gs.stack
    override_status := gs.override_status
    isolate_status := gs.isolate_status }

@[simp] theorem gPhi_runs (gs : GState) : (gPhi gs).runs = toRuns 0 gs.groups := rfl

@[simp] theorem gPhi_current_level (gs : GState) :
    (gPhi gs).current_level = gs.current_level := rfl

@[simp] theorem gPhi_run_start (gs : GState) :
    (gPhi gs).run_start = grpBytes gs.groups := rfl

@[simp] theorem gPhi_i (gs : GState) :
    (gPhi gs).i = grpBytes gs.groups + (encodeList gs.pending).length := rfl

@[simp] theorem gPhi_stack (gs : GState) : (gPhi gs).stack = gs.stack := rfl

@[simp] theorem gPhi_override (gs : GState) :
    (gPhi gs).override_status = gs.override_status := rfl

@[simp] theorem gPhi_isolate (gs : GState) :
    (gPhi gs).isolate_status = gs.isolate_status := rfl

theorem encodeList_append (a b : List Nat) :
    encodeList (a ++ b) = encodeList a ++ encodeList b := by
  unfold encodeList
  exact List.flatMap_append a b codepoint_to_utf8

theorem encodeList_cons (c : Nat) (cs : List Nat) :
    encodeList (c :: cs) = codepoint_to_utf8 c ++ encodeList cs := rfl

@[simp] theorem encodeList_nil : encodeList [] = [] := rfl

theorem encodeList_len_pos (cs : List Nat) (h : cs ≠ []) :
    0 < (encodeList cs).length := by
  cases cs with
  | nil => exact absurd rfl h
  | cons c t =>
    rw [encodeList_cons, List.length_append]
    have := (codepoint_to_utf8_length c).1
    omega

theorem encodeList_len_zero_iff (cs : List Nat) :
    (encodeList cs).length = 0 ↔ cs = [] := by
  constructor
  · intro h
    by_contra hne
    have := encodeList_len_pos cs hne
    omega
  · intro h
    subst h
    rfl

theorem grpBytes_append (a b : List (List Nat × Nat)) :
    grpBytes (a ++ b) = grpBytes a + grpBytes b := by
  unfold grpBytes
  rw [List.map_append, List.sum_append]

theorem grpBytes_single (g : List Nat × Nat) :
    grpBytes [g] = (encodeList g.1).length := by
  unfold grpBytes
  simp

theorem grpBytes_cons (g : List Nat × Nat) (gl : List (List Nat × Nat)) :
    grpBytes (g :: gl) = (encodeList g.1).length + grpBytes gl := by
  unfold grpBytes
  simp

theorem encodeList_single (c : Nat) : encodeList [c] = codepoint_to_utf8 c := by
  unfold encodeList
  simp

theorem toRuns_single (off : Nat) (g : List Nat × Nat) :
    toRuns off [g] = [⟨off, (encodeList g.1).length, g.2⟩] := rfl

theorem toRuns_append (off : Nat) (a b : List (List Nat × Nat)) :
    toRuns off (a ++ b) = toRuns off a ++ toRuns (off + grpBytes a) b := by
  induction a generalizing off with
  | nil =>
    simp only [List.nil_append, toRuns]
    rw [show grpBytes [] = 0 from rfl, Nat.add_zero]
  | cons g gl ih =>
    rw [List.cons_append]
    simp only [toRuns]
    rw [ih, grpBytes_cons, ← Nat.add_assoc]
    rfl

theorem boundary_simulates (gs : GState) (c : Nat)
    (matLevel newLevel : Nat) (stack : List Nat) (ov : Int) (iso : Bool) :
    boundary (gPhi gs) (codepoint_to_utf8 c).length matLevel newLevel
        stack ov iso =
      gPhi (gboundary gs c matLevel newLevel stack ov iso) := by
  unfold boundary gboundary gPhi
  dsimp only
  by_cases hp : gs.pending = []
  · rw [if_pos hp, hp]
    simp only [encodeList_nil, List.length_nil, Nat.add_zero,
      Nat.lt_irrefl, if_false, BidiState.mk.injEq]
    refine ⟨trivial, trivial, trivial, ?_, trivial, trivial, trivial⟩
    rw [encodeList_single]
  · have hpos := encodeList_len_pos gs.pending hp
    rw [if_neg hp, if_pos (show grpBytes gs.groups <
        grpBytes gs.groups + (encodeList gs.pending).length by omega)]
    simp only [BidiState.mk.injEq]
    refine ⟨?_, trivial, ?_, ?_, trivial, trivial, trivial⟩
    · rw [toRuns_append, toRuns_single, Nat.zero_add, Nat.add_sub_cancel_left]
    · rw [grpBytes_append, grpBytes_single]
    · rw [grpBytes_append, grpBytes_single, encodeList_single]

theorem advance_simulates (gs : GState) (c : Nat) :
    advance (gPhi gs) (codepoint_to_utf8 c).length = gPhi (gadvance gs c) := by
  unfold advance gadvance gPhi
  dsimp only
  simp only [BidiState.mk.injEq]
  refine ⟨trivial, trivial, trivial, ?_, trivial, trivial, trivial⟩
  rw [encodeList_append, encodeList_single, List.length_append]
  omega

set_option maxHeartbeats 2000000 in
theorem stepChar_simulates (c : Nat) (gs : GState) :
    stepChar c (codepoint_to_utf8 c).length (gPhi gs) = gPhi (gstep c gs) := by
  unfold stepChar gstep
  simp only [gPhi_stack, gPhi_current_level, gPhi_override, gPhi_isolate]
  simp only [apply_ite gPhi, boundary_simulates, advance_simulates]

theorem boundary_i (st : BidiState) (cl m n : Nat) (s : List Nat)
    (ov : Int) (iso : Bool) : (boundary st cl m n s ov iso).i = st.i + cl := rfl

theorem advance_i (st : BidiState) (cl : Nat) :
    (advance st cl).i = st.i + cl := rfl

theorem stepChar_i (cp cl : Nat) (st : BidiState) :
    (stepChar cp cl st).i = st.i + cl := by
  unfold stepChar
  simp only [apply_ite BidiState.i, boundary_i, advance_i, ite_self]

theorem gstep_bytes (c : Nat) (gs : GState) :
    (gPhi (gstep c gs)).i = (gPhi gs).i + (codepoint_to_utf8 c).length := by
  rw [← stepChar_simulates, stepChar_i]

theorem finalize_simulates (gs : GState) :
    finalize (gPhi gs) = toRuns 0 (gfinal gs) := by
  unfold finalize gfinal gPhi
  dsimp only
  by_cases hp : gs.pending = []
  · rw [hp]
    simp
  · have hpos := encodeList_len_pos gs.pending hp
    rw [if_neg hp, if_pos (show grpBytes gs.groups <
        grpBytes gs.groups + (encodeList gs.pending).length by omega)]
    rw [toRuns_append, toRuns_single, Nat.zero_add, Nat.add_sub_cancel_left]

theorem getD_drop_zero (l : List Nat) (n : Nat) :
    l.getD n 0 = (l.drop n).getD 0 0 := by
  rcases Nat.lt_or_ge n l.length with h | h
  · rw [List.getD_eq_getElem l 0 h, List.getD_eq_getElem _ 0 (by simp; omega)]
    simp
  · rw [List.getD_eq_default l 0 h, List.getD_eq_default _ 0 (by simp; omega)]

/-- On the byte image of a codepoint list, the segmentation loop
computes exactly the runs of the codepoint-level grouping machine. -/
theorem processRunsAux_eq_gfold (cs : List Nat) (gs : GState) (fuel : Nat)
    (text : List Nat) (length : Nat)
    (hv : ∀ c ∈ cs, c < 0x110000)
    (hfuel : cs.length ≤ fuel)
    (htext : text.drop (gPhi gs).i = encodeList cs)
    (hlen : length = (gPhi gs).i + (encodeList cs).length) :
    processRunsAux text length fuel (gPhi gs) =
      toRuns 0 (gfinal (gfold cs gs)) := by
  induction cs generalizing gs fuel with
  | nil =>
    have hi : length = (gPhi gs).i := by
      rw [hlen, encodeList_nil, List.length_nil, Nat.add_zero]
    cases fuel with
    | zero => exact finalize_simulates gs
    | succ f =>
      unfold processRunsAux
      rw [if_neg (by omega)]
      exact finalize_simulates gs
  | cons c cs ih =>
    obtain ⟨fuel, rfl⟩ : ∃ f, fuel = f + 1 :=
      ⟨fuel - 1, by simp at hfuel; omega⟩
    have hc : c < 0x110000 := hv c (by simp)
    have hone := (codepoint_to_utf8_length c).1
    have hdrop : text.drop (gPhi gs).i = codepoint_to_utf8 c ++ encodeList cs := by
      rw [htext, encodeList_cons]
    have hi_lt : (gPhi gs).i < length := by
      rw [hlen]
      have := encodeList_len_pos (c :: cs) (by simp)
      omega
    have hlead : text.getD (gPhi gs).i 0 = (codepoint_to_utf8 c).getD 0 0 := by
      rw [getD_drop_zero, hdrop]
      cases h : codepoint_to_utf8 c with
      | nil => exact absurd h (codepoint_to_utf8_ne_nil c)
      | cons b bs => simp
    have hcharlen : get_utf8_char_length (text.getD (gPhi gs).i 0) =
        (codepoint_to_utf8 c).length := by
      rw [hlead]
      exact get_utf8_char_length_encode c hc
    have htake : (text.drop (gPhi gs).i).take (codepoint_to_utf8 c).length =
        codepoint_to_utf8 c := by
      rw [hdrop]
      exact List.take_left _ _
    unfold processRunsAux
    rw [if_pos hi_lt, hcharlen, if_neg (by omega), htake, utf8_roundtrip c hc]
    dsimp only
    rw [stepChar_simulates c gs]
    simp only [gfold]
    apply ih (gstep c gs) fuel (fun x hx => hv x (by simp [hx]))
      (by simp at hfuel; omega)
    · rw [gstep_bytes, ← List.drop_drop, hdrop, List.drop_left]
    · rw [gstep_bytes, hlen, encodeList_cons, List.length_append]
      omega

/-! ## Tiling: the grouping machine partitions the codepoint list -/

def gConcat (gs : GState) : List Nat :=
  gs.groups.flatMap Prod.fst ++ gs.pending

theorem gboundary_concat (gs : GState) (c m n : Nat) (s : List Nat)
    (ov : Int) (iso : Bool) :
    gConcat (gboundary gs c m n s ov iso) = gConcat gs ++ [c] := by
  unfold gConcat gboundary
  dsimp only
  by_cases hp : gs.pending = []
  · rw [if_pos hp, hp]
    simp
  · rw [if_neg hp]
    simp

theorem gadvance_concat (gs : GState) (c : Nat) :
    gConcat (gadvance gs c) = gConcat gs ++ [c] := by
  unfold gConcat gadvance
  simp

theorem gstep_concat (c : Nat) (gs : GState) :
    gConcat (gstep c gs) = gConcat gs ++ [c] := by
  unfold gstep
  simp only [apply_ite gConcat, gboundary_concat, gadvance_concat, ite_self]

theorem gfold_concat (cs : List Nat) (gs : GState) :
    gConcat (gfold cs gs) = gConcat gs ++ cs := by
  induction cs generalizing gs with
  | nil => simp [gfold]
  | cons c cs ih =>
    simp only [gfold]
    rw [ih, gstep_concat, List.append_assoc, List.singleton_append]

theorem gfinal_concat (gs : GState) :
    (gfinal gs).flatMap Prod.fst = gConcat gs := by
  unfold gfinal gConcat
  by_cases hp : gs.pending = []
  · rw [if_pos hp, hp]
    simp
  · rw [if_neg hp]
    simp

/-! ## Byte access inside an encoded codepoint list -/

theorem getD_drop_add (l : List Nat) (n j : Nat) :
    l.getD (n + j) 0 = (l.drop n).getD j 0 := by
  rcases Nat.lt_or_ge (n + j) l.length with h | h
  · rw [List.getD_eq_getElem l 0 h, List.getD_eq_getElem _ 0 (by simp; omega)]
    simp only [List.getElem_drop]
  · rw [List.getD_eq_default l 0 h, List.getD_eq_default _ 0 (by simp; omega)]

/-- Every byte of an encoded codepoint after the lead byte matches
10xxxxxx. -/
theorem enc_cont_bytes (c : Nat) (hc : c < 0x110000) (j : Nat)
    (hj1 : 1 ≤ j) (hj : j < (codepoint_to_utf8 c).length) :
    ((codepoint_to_utf8 c).getD j 0) &&& 0xC0 = 0x80 := by
  rw [codepoint_to_utf8_eq c hc] at hj ⊢
  split_ifs at hj ⊢ with h1 h2 h3
  · simp at hj
    omega
  · have : j = 1 := by simp at hj; omega
    subst this
    rw [List.getD_cons_succ, List.getD_cons_zero]
    exact byte_cont_mask _ (by omega)
  · have : j = 1 ∨ j = 2 := by simp at hj; omega
    rcases this with h | h <;> subst h
    · rw [List.getD_cons_succ, List.getD_cons_zero]
      exact byte_cont_mask _ (by omega)
    · rw [List.getD_cons_succ, List.getD_cons_succ, List.getD_cons_zero]
      exact byte_cont_mask _ (by omega)
  · have : j = 1 ∨ j = 2 ∨ j = 3 := by simp at hj; omega
    rcases this with h | h | h <;> subst h
    · rw [List.getD_cons_succ, List.getD_cons_zero]
      exact byte_cont_mask _ (by omega)
    · rw [List.getD_cons_succ, List.getD_cons_succ, List.getD_cons_zero]
      exact byte_cont_mask _ (by omega)
    · rw [List.getD_cons_succ, List.getD_cons_succ, List.getD_cons_succ,
        List.getD_cons_zero]
      exact byte_cont_mask _ (by omega)

/-- The lead byte of an encoded codepoint never matches 10xxxxxx. -/
theorem enc_head_not_cont (c : Nat) (hc : c < 0x110000) :
    ((codepoint_to_utf8 c).getD 0 0) &&& 0xC0 ≠ 0x80 := by
  rw [codepoint_to_utf8_eq c hc]
  split_ifs with h1 h2 h3
  · rw [List.getD_cons_zero]
    exact byte_ascii_not_cont c h1
  · rw [List.getD_cons_zero]
    exact byte_lead2_not_cont _ (by omega)
  · rw [List.getD_cons_zero]
    exact byte_lead3_not_cont _ (by omega)
  · rw [List.getD_cons_zero]
    exact byte_lead4_not_cont _ (by omega)

/-- Evaluation of the backwards continuation-byte scan when the bytes
before `pos` are one complete UTF-8 character of length `L` starting at
`q ≥ startPos`. -/
theorem scanBack_eval (text : List Nat) (startPos q L : Nat)
    (h1 : 1 ≤ L) (h4 : L ≤ 4) (hq : startPos ≤ q)
    (hcont : ∀ k, 1 ≤ k → k < L → (text.getD (q + L - k) 0) &&& 0xC0 = 0x80)
    (hhead : (text.getD q 0) &&& 0xC0 ≠ 0x80) :
    scanBack text startPos (q + L) = L := by
  unfold scanBack
  interval_cases L
  · rw [if_neg]
    intro h
    exact hhead (by
      have heq : q + 1 - 1 = q := by omega
      rw [heq] at h
      exact h.2.2)
  · rw [if_pos ⟨by omega, by omega, hcont 1 (by omega) (by omega)⟩, if_neg]
    intro h
    exact hhead (by
      have heq : q + 2 - 2 = q := by omega
      rw [heq] at h
      exact h.2.2)
  · rw [if_pos ⟨by omega, by omega, hcont 1 (by omega) (by omega)⟩,
      if_pos ⟨by omega, by omega, hcont 2 (by omega) (by omega)⟩, if_neg]
    intro h
    exact hhead (by
      have heq : q + 3 - 3 = q := by omega
      rw [heq] at h
      exact h.2.2)
  · rw [if_pos ⟨by omega, by omega, hcont 1 (by omega) (by omega)⟩,
      if_pos ⟨by omega, by omega, hcont 2 (by omega) (by omega)⟩,
      if_pos ⟨by omega, by omega, hcont 3 (by omega) (by omega)⟩, if_neg]
    intro h
    exact hhead (by
      have heq : q + 4 - 4 = q := by omega
      rw [heq] at h
      exact h.2.2)

/-- The scan-back step recovers exactly the last encoded character. -/
theorem scanBack_spec (text : List Nat) (startPos q : Nat) (c : Nat)
    (rest : List Nat) (hc : c < 0x110000)
    (hdrop : text.drop q = codepoint_to_utf8 c ++ rest)
    (hq : startPos ≤ q) :
    scanBack text startPos (q + (codepoint_to_utf8 c).length) =
      (codepoint_to_utf8 c).length := by
  have hget : ∀ j, j < (codepoint_to_utf8 c).length →
      text.getD (q + j) 0 = (codepoint_to_utf8 c).getD j 0 := by
    intro j hj
    rw [getD_drop_add, hdrop, List.getD_append _ _ _ j hj]
  apply scanBack_eval text startPos q _ (codepoint_to_utf8_length c).1
    (codepoint_to_utf8_length c).2 hq
  · intro k hk1 hkL
    have : q + (codepoint_to_utf8 c).length - k =
        q + ((codepoint_to_utf8 c).length - k) := by omega
    rw [this, hget _ (by omega)]
    exact enc_cont_bytes c hc _ (by omega) (by omega)
  · rw [show q = q + 0 by omega, hget 0 (codepoint_to_utf8_length c).1]
    exact enc_head_not_cont c hc

/-! ## Per-run emission of the reorderer -/

/-- Bool form of `copyCheck` used for filtering codepoint lists. -/
def keptCp (c : Nat) : Bool := decide (copyCheck (get_char_type c))

theorem runFwd_spec (todo : List Nat) (text : List Nat) (pos : Nat)
    (rest : List Nat) (fuel : Nat)
    (hv : ∀ c ∈ todo, c < 0x110000)
    (hfuel : todo.length ≤ fuel)
    (htext : text.drop pos = encodeList todo ++ rest) :
    runFwd text (pos + (encodeList todo).length) fuel pos =
      encodeList (todo.filter keptCp) := by
  induction todo generalizing pos fuel rest with
  | nil =>
    cases fuel with
    | zero => rfl
    | succ f =>
      unfold runFwd
      rw [if_neg (by simp)]
      rfl
  | cons c todo ih =>
    obtain ⟨fuel, rfl⟩ : ∃ f, fuel = f + 1 :=
      ⟨fuel - 1, by simp at hfuel; omega⟩
    have hc : c < 0x110000 := hv c (by simp)
    have hone := (codepoint_to_utf8_length c).1
    have hdrop : text.drop pos = codepoint_to_utf8 c ++ (encodeList todo ++ rest) := by
      rw [htext, encodeList_cons, List.append_assoc]
    have hlead : text.getD pos 0 = (codepoint_to_utf8 c).getD 0 0 := by
      rw [getD_drop_zero, hdrop]
      cases h : codepoint_to_utf8 c with
      | nil => exact absurd h (codepoint_to_utf8_ne_nil c)
      | cons b bs => simp
    have hcharlen : get_utf8_char_length (text.getD pos 0) =
        (codepoint_to_utf8 c).length := by
      rw [hlead]
      exact get_utf8_char_length_encode c hc
    have htake : (text.drop pos).take (codepoint_to_utf8 c).length =
        codepoint_to_utf8 c := by
      rw [hdrop]
      exact List.take_left _ _
    have hpos_lt : pos < pos + (encodeList (c :: todo)).length := by
      have := encodeList_len_pos (c :: todo) (by simp)
      omega
    unfold runFwd
    rw [if_pos hpos_lt, hcharlen, htake, utf8_roundtrip c hc]
    dsimp only [Option.getD_some]
    have hdropnext : text.drop (pos + (codepoint_to_utf8 c).length) =
        encodeList todo ++ rest := by
      rw [← List.drop_drop, hdrop, List.drop_left]
    have hend : pos + (encodeList (c :: todo)).length =
        (pos + (codepoint_to_utf8 c).length) + (encodeList todo).length := by
      rw [encodeList_cons, List.length_append]
      omega
    rw [hend, ih (pos + (codepoint_to_utf8 c).length) rest fuel
      (fun x hx => hv x (by simp [hx])) (by simp at hfuel; omega) hdropnext]
    by_cases hcopy : copyCheck (get_char_type c)
    · rw [if_pos hcopy, List.filter_cons_of_pos (by simp [keptCp, hcopy]),
        encodeList_cons]
    · rw [if_neg hcopy, List.filter_cons_of_neg (by simp [keptCp, hcopy]),
        List.nil_append]

theorem runBwd_spec (todo : List Nat) (text : List Nat) (startPos : Nat)
    (rest : List Nat) (fuel : Nat)
    (hv : ∀ c ∈ todo, c < 0x110000)
    (hfuel : todo.length ≤ fuel)
    (htext : text.drop startPos = encodeList todo ++ rest) :
    runBwd text startPos fuel (startPos + (encodeList todo).length) =
      encodeList ((todo.reverse).filter keptCp) := by
  induction todo using List.reverseRecOn generalizing fuel rest with
  | nil =>
    cases fuel with
    | zero => rfl
    | succ f =>
      unfold runBwd
      rw [if_neg (by simp)]
      rfl
  | append_singleton todo c ih =>
    obtain ⟨fuel, rfl⟩ : ∃ f, fuel = f + 1 :=
      ⟨fuel - 1, by simp at hfuel; omega⟩
    have hc : c < 0x110000 := hv c (by simp)
    have hone := (codepoint_to_utf8_length c).1
    have henc : encodeList (todo ++ [c]) = encodeList todo ++ codepoint_to_utf8 c := by
      rw [encodeList_append, encodeList_single]
    have hdropq : text.drop (startPos + (encodeList todo).length) =
        codepoint_to_utf8 c ++ rest := by
      rw [← List.drop_drop, htext, henc, List.append_assoc, List.drop_left]
    have hpos : startPos + (encodeList (todo ++ [c])).length =
        (startPos + (encodeList todo).length) + (codepoint_to_utf8 c).length := by
      rw [henc, List.length_append]
      omega
    have hsb : scanBack text startPos
        (startPos + (encodeList (todo ++ [c])).length) =
        (codepoint_to_utf8 c).length := by
      rw [hpos]
      exact scanBack_spec text startPos _ c rest hc hdropq (by omega)
    have hlt : startPos < startPos + (encodeList (todo ++ [c])).length := by
      have := encodeList_len_pos (todo ++ [c]) (by simp)
      omega
    have hsub : startPos + (encodeList (todo ++ [c])).length -
        (codepoint_to_utf8 c).length = startPos + (encodeList todo).length := by
      rw [hpos]
      omega
    have htakeq : (text.drop (startPos + (encodeList todo).length)).take
        (codepoint_to_utf8 c).length = codepoint_to_utf8 c := by
      rw [hdropq]
      exact List.take_left _ _
    unfold runBwd
    rw [if_pos hlt, hsb, hsub, htakeq, utf8_roundtrip c hc]
    dsimp only
    rw [ih (codepoint_to_utf8 c ++ rest) fuel (fun x hx => hv x (by simp [hx]))
      (by simp at hfuel; omega) (by rw [htext, henc, List.append_assoc])]
    have hrev : (todo ++ [c]).reverse = c :: todo.reverse := by simp
    rw [hrev]
    by_cases hcopy : copyCheck (get_char_type c)
    · rw [if_pos hcopy, List.filter_cons_of_pos (by simp [keptCp, hcopy]),
        encodeList_cons]
    · rw [if_neg hcopy, List.filter_cons_of_neg (by simp [keptCp, hcopy]),
        List.nil_append]

/-! ## Assembly of the reordering over the whole run list -/

theorem list_len_le_encodeList (cs : List Nat) :
    cs.length ≤ (encodeList cs).length := by
  induction cs with
  | nil => simp
  | cons c t ih =>
    rw [encodeList_cons, List.length_append, List.length_cons]
    have := (codepoint_to_utf8_length c).1
    omega

theorem flatMap_encodeList {α : Type} (l : List α) (f : α → List Nat) :
    l.flatMap (fun x => encodeList (f x)) = encodeList (l.flatMap f) := by
  induction l with
  | nil => rfl
  | cons x t ih => rw [List.flatMap_cons, List.flatMap_cons, encodeList_append, ih]

/-- What one run of the reorderer emits, per group. -/
def groupEmit (g : List Nat × Nat) : List Nat :=
  (if g.2 % 2 = 1 then g.1.reverse else g.1).filter keptCp

theorem toRuns_reorder (G : List (List Nat × Nat)) (base : Nat)
    (text : List Nat) (rest : List Nat)
    (hv : ∀ g ∈ G, ∀ c ∈ g.1, c < 0x110000)
    (htext : text.drop base = encodeList (G.flatMap Prod.fst) ++ rest) :
    List.Forall₂ (fun (r : BidiRun) (g : List Nat × Nat) =>
        r.level = g.2 ∧ reorderRun text r = encodeList (groupEmit g))
      (toRuns base G) G := by
  induction G generalizing base rest with
  | nil => exact List.Forall₂.nil
  | cons g G ih =>
    have hvg : ∀ c ∈ g.1, c < 0x110000 := hv g (by simp)
    have hdropg : text.drop base =
        encodeList g.1 ++ (encodeList (G.flatMap Prod.fst) ++ rest) := by
      rw [htext, List.flatMap_cons, encodeList_append, List.append_assoc]
    have hdropnext : text.drop (base + (encodeList g.1).length) =
        encodeList (G.flatMap Prod.fst) ++ rest := by
      rw [← List.drop_drop, hdropg, List.drop_left]
    refine List.Forall₂.cons ⟨rfl, ?_⟩
      (ih (base + (encodeList g.1).length) rest
        (fun x hx => hv x (by simp [hx])) hdropnext)
    unfold reorderRun groupEmit
    dsimp only
    by_cases hodd : g.2 % 2 = 1
    · rw [if_pos hodd, if_pos hodd]
      exact runBwd_spec g.1 text base (encodeList (G.flatMap Prod.fst) ++ rest)
        (encodeList g.1).length hvg (list_len_le_encodeList g.1) hdropg
    · rw [if_neg hodd, if_neg hodd]
      exact runFwd_spec g.1 text base (encodeList (G.flatMap Prod.fst) ++ rest)
        (encodeList g.1).length hvg (list_len_le_encodeList g.1) hdropg

theorem reorder_filter_eq (runs : List BidiRun) (G : List (List Nat × Nat))
    (text : List Nat)
    (h : List.Forall₂ (fun (r : BidiRun) (g : List Nat × Nat) =>
        r.level = g.2 ∧ reorderRun text r = encodeList (groupEmit g)) runs G)
    (level : Nat) :
    (runs.filter (fun r => r.level = level)).flatMap (reorderRun text) =
      (G.filter (fun g => g.2 = level)).flatMap
        (fun g => encodeList (groupEmit g)) := by
  induction h with
  | nil => rfl
  | cons hrg hforall ih =>
    rename_i r g runs G
    obtain ⟨hlvl, hemit⟩ := hrg
    by_cases hl : g.2 = level
    · rw [List.filter_cons_of_pos (by simp [hlvl, hl]),
        List.filter_cons_of_pos (by simp [hl]),
        List.flatMap_cons, List.flatMap_cons, hemit, ih]
    · rw [List.filter_cons_of_neg (by simp [hlvl, hl]),
        List.filter_cons_of_neg (by simp [hl]), ih]

theorem foldl_maxlvl_eq (runs : List BidiRun) (G : List (List Nat × Nat))
    (text : List Nat)
    (h : List.Forall₂ (fun (r : BidiRun) (g : List Nat × Nat) =>
        r.level = g.2 ∧ reorderRun text r = encodeList (groupEmit g)) runs G) :
    ∀ m, runs.foldl (fun m r => if m < r.level then r.level else m) m =
      G.foldl (fun m g => if m < g.2 then g.2 else m) m := by
  induction h with
  | nil => intro m; rfl
  | cons hrg hforall ih =>
    intro m
    rename_i r g runs G
    simp only [List.foldl_cons, hrg.1, ih]

theorem foldl_maxlvl_mem (G : List (List Nat × Nat)) :
    ∀ m, ∀ g ∈ G, g.2 ≤ G.foldl (fun m g => if m < g.2 then g.2 else m) m := by
  have hinit : ∀ (G : List (List Nat × Nat)) (m : Nat),
      m ≤ G.foldl (fun m g => if m < g.2 then g.2 else m) m := by
    intro G
    induction G with
    | nil => intro m; simp
    | cons g G ih =>
      intro m
      simp only [List.foldl_cons]
      by_cases h : m < g.2
      · rw [if_pos h]
        have := ih g.2
        omega
      · rw [if_neg h]
        exact ih m
  induction G with
  | nil => intro m g hg; simp at hg
  | cons g' G ih =>
    intro m g hg
    rcases List.mem_cons.mp hg with h | h
    · subst h
      simp only [List.foldl_cons]
      by_cases hm : m < g.2
      · rw [if_pos hm]
        exact hinit G g.2
      · rw [if_neg hm]
        have := hinit G m
        omega
    · simp only [List.foldl_cons]
      exact ih _ g h

theorem flatMap_levels_perm {α : Type} (lvl : α → Nat) (ℓs : List Nat)
    (G : List α) (hnd : ℓs.Nodup) (hcov : ∀ g ∈ G, lvl g ∈ ℓs) :
    (ℓs.flatMap (fun ℓ => G.filter (fun g => lvl g = ℓ))).Perm G := by
  induction ℓs generalizing G with
  | nil =>
    have : G = [] := by
      cases G with
      | nil => rfl
      | cons x xs => exact absurd (hcov x (by simp)) (by simp)
    rw [this]
    simp
  | cons ℓ rest ih =>
    have hmem : ℓ ∉ rest := (List.nodup_cons.mp hnd).1
    have hndrest : rest.Nodup := (List.nodup_cons.mp hnd).2
    rw [List.flatMap_cons]
    have hswap : rest.flatMap (fun ℓ' => G.filter (fun g => lvl g = ℓ')) =
        rest.flatMap (fun ℓ' =>
          (G.filter (fun g => !(decide (lvl g = ℓ)))).filter
            (fun g => lvl g = ℓ')) := by
      apply List.flatMap_congr
      intro ℓ' hℓ'
      rw [List.filter_filter]
      apply List.filter_congr
      intro x hx
      by_cases hxl : lvl x = ℓ'
      · have hnl : ¬ lvl x = ℓ := by
          intro hbad
          exact hmem (by rw [← hxl, hbad] at hℓ'; exact hℓ')
        have hne : ¬ ℓ' = ℓ := fun h => hnl (by rw [hxl, h])
        simp [hxl, hnl, hne]
      · simp [hxl]
    rw [hswap]
    have ihw := ih (G.filter (fun g => !(decide (lvl g = ℓ)))) hndrest ?hcov
    case hcov =>
      intro g hg
      have hgG := List.mem_of_mem_filter hg
      have := List.of_mem_filter hg
      simp at this
      rcases List.mem_cons.mp (hcov g hgG) with h | h
      · exact absurd h this
      · exact h
    exact List.Perm.trans (List.Perm.append_left _ ihw)
      (List.filter_append_perm _ G)

/-- The full reorderer on the runs of a grouping: the output is the
byte image of some codepoint list that is a permutation of the
non-formatting input codepoints. -/
theorem reorder_runs_spec (G : List (List Nat × Nat)) (text : List Nat)
    (length : Nat)
    (hv : ∀ g ∈ G, ∀ c ∈ g.1, c < 0x110000)
    (htext : text = encodeList (G.flatMap Prod.fst)) :
    ∃ outCps : List Nat,
      reorder_runs (toRuns 0 G) text length = encodeList outCps ∧
      outCps.Perm ((G.flatMap Prod.fst).filter keptCp) := by
  have hF := toRuns_reorder G 0 text [] hv
    (by rw [htext]; simp)
  unfold reorder_runs
  rw [foldl_maxlvl_eq _ _ _ hF 0]
  refine ⟨((List.range (G.foldl (fun m g => if m < g.2 then g.2 else m) 0 + 1)).reverse).flatMap
    (fun ℓ => (G.filter (fun g => g.2 = ℓ)).flatMap groupEmit), ?_, ?_⟩
  · rw [List.flatMap_congr (fun ℓ _ => reorder_filter_eq _ _ text hF ℓ)]
    rw [List.flatMap_congr (fun ℓ _ => flatMap_encodeList (G.filter (fun g => g.2 = ℓ)) groupEmit)]
    rw [flatMap_encodeList]
  · have hperm1 : (((List.range (G.foldl (fun m g => if m < g.2 then g.2 else m) 0 + 1)).reverse).flatMap
        (fun ℓ => G.filter (fun g => g.2 = ℓ))).Perm G := by
      apply flatMap_levels_perm (fun g : List Nat × Nat => g.2)
      · exact List.nodup_reverse.mpr (List.nodup_range _)
      · intro g hg
        rw [List.mem_reverse, List.mem_range]
        have := foldl_maxlvl_mem G 0 g hg
        omega
    rw [← List.flatMap_assoc]
    refine List.Perm.trans (List.Perm.flatMap_right groupEmit hperm1) ?_
    refine List.Perm.trans
      (List.Perm.flatMap_left G (fun g _ => ?_))
      (show (G.flatMap (fun g => g.1.filter keptCp)).Perm _ from ?_)
    · show (groupEmit g).Perm (g.1.filter keptCp)
      unfold groupEmit
      by_cases hodd : g.2 % 2 = 1
      · rw [if_pos hodd, List.filter_reverse]
        exact List.reverse_perm _
      · rw [if_neg hodd]
    · rw [← List.filter_flatMap]

theorem process_fst_snd (text : List Nat) (length : Nat) (r : Bool) :
    (process_bidirectional_text text length r).fst =
      (process_bidirectional_text text length r).snd.length := by
  unfold process_bidirectional_text
  split_ifs <;> rfl

/-- Master theorem: processing the byte image of any codepoint list
yields the byte image of a permutation of its non-formatting
codepoints. -/
theorem process_bidi_perm (cps : List Nat) (is_rtl : Bool)
    (hv : ∀ c ∈ cps, c < 0x110000) :
    ∃ outCps : List Nat,
      (process_bidirectional_text (encodeList cps)
          (encodeList cps).length is_rtl).snd = encodeList outCps ∧
      outCps.Perm (cps.filter keptCp) := by
  by_cases hnil : cps = []
  · subst hnil
    exact ⟨[], rfl, List.Perm.refl []⟩
  · have hlenpos := encodeList_len_pos cps hnil
    have hruns : process_runs (encodeList cps) (encodeList cps).length
        (if is_rtl then 1 else 0) =
        toRuns 0 (gfinal (gfold cps
          ⟨[], [], if is_rtl then 1 else 0, [if is_rtl then 1 else 0],
            -1, false⟩)) := by
      unfold process_runs
      exact processRunsAux_eq_gfold cps
        ⟨[], [], if is_rtl then 1 else 0, [if is_rtl then 1 else 0], -1, false⟩
        (encodeList cps).length (encodeList cps) (encodeList cps).length hv
        (list_len_le_encodeList cps) (by simp [gPhi, grpBytes])
        (by simp [gPhi, grpBytes])
    have hGconcat : ((gfinal (gfold cps
        ⟨[], [], if is_rtl then 1 else 0, [if is_rtl then 1 else 0],
          -1, false⟩)).flatMap Prod.fst) = cps := by
      rw [gfinal_concat, gfold_concat]
      simp [gConcat]
    have hGv : ∀ g ∈ gfinal (gfold cps
        ⟨[], [], if is_rtl then 1 else 0, [if is_rtl then 1 else 0],
          -1, false⟩), ∀ c ∈ g.1, c < 0x110000 := by
      intro g hg c hc
      apply hv
      rw [← hGconcat]
      exact List.mem_flatMap.mpr ⟨g, hg, hc⟩
    have hGne : gfinal (gfold cps
        ⟨[], [], if is_rtl then 1 else 0, [if is_rtl then 1 else 0],
          -1, false⟩) ≠ [] := by
      intro h
      rw [h] at hGconcat
      exact hnil (by rw [← hGconcat]; rfl)
    have hrunsne : toRuns 0 (gfinal (gfold cps
        ⟨[], [], if is_rtl then 1 else 0, [if is_rtl then 1 else 0],
          -1, false⟩)) ≠ [] := by
      cases h : gfinal (gfold cps
        ⟨[], [], if is_rtl then 1 else 0, [if is_rtl then 1 else 0],
          -1, false⟩) with
      | nil => exact absurd h hGne
      | cons g gl => simp [toRuns]
    obtain ⟨outCps, hout, hperm⟩ := reorder_runs_spec _ (encodeList cps)
      (encodeList cps).length hGv (by rw [hGconcat])
    refine ⟨outCps, ?_, by rw [hGconcat] at hperm; exact hperm⟩
    unfold process_bidirectional_text
    rw [if_neg (by omega), hruns, if_neg hrunsne]
    dsimp only
    rw [hout]

theorem encodeList_filter_le (cps : List Nat) (p : Nat → Bool) :
    (encodeList (cps.filter p)).length ≤ (encodeList cps).length := by
  induction cps with
  | nil => simp
  | cons c t ih =>
    rw [encodeList_cons, List.length_append]
    by_cases hp : p c
    · rw [List.filter_cons_of_pos hp, encodeList_cons, List.length_append]
      omega
    · rw [List.filter_cons_of_neg (by simp [hp])]
      omega

/-! ## Neutral input: no boundaries are ever created -/

theorem gstep_neutral (c : Nat) (gs : GState)
    (hov : gs.override_status = -1)
    (hL : get_char_type c ≠ BIDI_TYPE_L)
    (hR : get_char_type c ≠ BIDI_TYPE_R)
    (hAL : get_char_type c ≠ BIDI_TYPE_AL)
    (hcc : copyCheck (get_char_type c)) :
    gstep c gs = gadvance gs c := by
  unfold copyCheck at hcc
  obtain ⟨h13, h14, h15, h16, h17, h18, h19, h20, h21⟩ := hcc
  unfold gstep
  dsimp only
  rw [if_neg h13, if_neg h14, if_neg h15, if_neg h16, if_neg h17,
    if_neg h18, if_neg h19, if_neg h20, if_neg h21, hov]
  rw [if_neg (show ¬ (-1 : Int) = 0 by decide),
    if_neg (show ¬ (-1 : Int) = 1 by decide)]
  rw [if_neg (show ¬ (get_char_type c = BIDI_TYPE_AL ∨
      get_char_type c = BIDI_TYPE_R) from fun h => h.elim hAL hR),
    if_neg hL]
  rw [if_neg (show ¬ gs.current_level ≠ gs.current_level from fun h => h rfl)]

theorem gfold_neutral (cs : List Nat) (gs : GState)
    (hov : gs.override_status = -1)
    (hn : ∀ c ∈ cs, get_char_type c ≠ BIDI_TYPE_L ∧
      get_char_type c ≠ BIDI_TYPE_R ∧ get_char_type c ≠ BIDI_TYPE_AL ∧
      copyCheck (get_char_type c)) :
    gfold cs gs = { gs with pending := gs.pending ++ cs } := by
  induction cs generalizing gs with
  | nil => simp only [gfold, List.append_nil]
  | cons c cs ih =>
    obtain ⟨hL, hR, hAL, hcc⟩ := hn c (by simp)
    simp only [gfold]
    rw [gstep_neutral c gs hov hL hR hAL hcc]
    rw [ih (gadvance gs c) (by unfold gadvance; exact hov)
      (fun x hx => hn x (by simp [hx]))]
    unfold gadvance
    dsimp only
    rw [List.append_assoc, List.singleton_append]

/-! ## Claim theorems (concrete evaluations) -/

/-- C1: the claim states that an all-ASCII-letters input processed with
`is_rtl = false` comes out byte-identical. The code instead escalates
the embedding level by 2 at every strong-LTR character (bidi.c line
307), producing one run per letter at levels 2, 4, ..., and the
highest-level-first reordering then emits the letters in reverse: input
"ab" yields output "ba". The returned count does equal the input
length. -/
theorem claim_C1_code_divergence :
    process_bidirectional_text [0x61, 0x62] 2 false = (2, [0x62, 0x61]) ∧
    (2, [0x62, 0x61]) ≠ ((2 : Nat), [0x61, 0x62]) := by
  constructor
  · decide
  · decide

/-- C2: the claim (and the spec) say Arabic-Indic digits classify as
`AN`. In bidi.c the Arabic-letter range check 0x0600-0x06FF (line 62)
precedes and contains both digit ranges of lines 76-77, so the `AN`
branch is dead and `get_char_type 0x0660` returns `AL` (12), not `AN`
(5). -/
theorem claim_C2_code_divergence :
    get_char_type 0x0660 = BIDI_TYPE_AL ∧
    get_char_type 0x06F0 = BIDI_TYPE_AL ∧
    get_char_type 0x0660 ≠ BIDI_TYPE_AN := by
  refine ⟨by decide, by decide, by decide⟩

/-- C3: the claim states that on LRE (stack not full) the pending run
keeps the pre-push level and the following text is segmented at the
pushed even level. In the code the switch overwrites `current_level`
with the pushed level before the run node is created (bidi.c line 200
vs 322), and the boundary block then restores the pre-switch level
(line 334, `current_level = new_level` where `new_level` still holds
the old level). On input "1" U+202A "2" (bytes 31 E2 80 AA 32, base
level 0, pushed level `levelEven 0 = 2`) the pending run "1" is created
at the pushed level 2 and the following text is segmented at the old
level 0 - the exact opposite of the claim. -/
theorem claim_C3_code_divergence :
    levelEven 0 = 2 ∧
    get_char_type 0x202A = BIDI_TYPE_LRE ∧
    process_runs [0x31, 0xE2, 0x80, 0xAA, 0x32] 5 0 =
      [⟨0, 1, 2⟩, ⟨1, 4, 0⟩] := by
  refine ⟨by decide, by decide, by decide⟩

/-- C4 counterexample: `utf8_to_codepoint` performs no continuation-byte
validation - on the buffer C3 41, whose lead byte declares length 2 and
whose second byte 0x41 is not 10xxxxxx, it still succeeds (combining
the masked payload bits into 193) instead of returning a failure
result. -/
theorem claim_C4_counterexample :
    get_utf8_char_length 0xC3 = 2 ∧
    0x41 &&& 0xC0 ≠ 0x80 ∧
    utf8_to_codepoint [0xC3, 0x41] = some 193 := by
  refine ⟨by decide, by decide, by decide⟩

/-- C4 amended: the continuation-byte validation described by the claim
lives in `read_utf8_char` (utf8.c lines 106-123), not in
`utf8_to_codepoint`: whenever the lead byte declares a multi-byte
length that fits in `max_size` and some continuation byte inside the
declared length does not match 10xxxxxx, `read_utf8_char` returns the
failure result 0. -/
theorem claim_C4_amended (buffer : List Nat) (max_size : Nat)
    (h2 : 2 ≤ get_utf8_char_length (buffer.getD 0 0))
    (hm : get_utf8_char_length (buffer.getD 0 0) ≤ max_size)
    (hbad : ∃ j, 1 ≤ j ∧ j < get_utf8_char_length (buffer.getD 0 0) ∧
      (buffer.getD j 0) &&& 0xC0 ≠ 0x80) :
    read_utf8_char buffer max_size = 0 := by
  obtain ⟨j, hj1, hj2, hj3⟩ := hbad
  unfold read_utf8_char
  split_ifs with ha hb hc
  · rfl
  · rfl
  · exfalso
    have hmem : j ∈ List.range' 1 (get_utf8_char_length (buffer.getD 0 0) - 1) := by
      rw [List.mem_range'_1]
      omega
    have := List.all_eq_true.mp hc j hmem
    simp only [decide_eq_true_eq] at this
    exact hj3 this
  · rfl

/-- C4 witness: the amended theorem applied to the concrete buffer
C3 41 with `max_size = 2`. -/
theorem claim_C4_witness :
    (2 ≤ get_utf8_char_length ((0xC3 : Nat)) ∧
      get_utf8_char_length ((0xC3 : Nat)) ≤ 2) ∧
    read_utf8_char [0xC3, 0x41] 2 = 0 :=
  ⟨⟨by decide, by decide⟩,
    claim_C4_amended [0xC3, 0x41] 2 (by decide) (by decide)
      ⟨1, by decide, by decide, by decide⟩⟩

/-- C7: UTF-8 round-trip at the five spec codepoints: decoding the
encoder's bytes yields the original codepoint. -/
theorem claim_C7_roundtrip :
    utf8_to_codepoint (codepoint_to_utf8 0x41) = some 0x41 ∧
    utf8_to_codepoint (codepoint_to_utf8 0x0645) = some 0x0645 ∧
    utf8_to_codepoint (codepoint_to_utf8 0x05D0) = some 0x05D0 ∧
    utf8_to_codepoint (codepoint_to_utf8 0x4E2D) = some 0x4E2D ∧
    utf8_to_codepoint (codepoint_to_utf8 0x10000) = some 0x10000 := by
  refine ⟨by decide, by decide, by decide, by decide, by decide⟩

theorem get_char_type_mem (codepoint : Nat) :
    get_char_type codepoint ∈
      [BIDI_TYPE_AL, BIDI_TYPE_R, BIDI_TYPE_EN, BIDI_TYPE_LRM,
       BIDI_TYPE_RLM, BIDI_TYPE_LRE, BIDI_TYPE_RLE, BIDI_TYPE_PDF,
       BIDI_TYPE_LRO, BIDI_TYPE_RLO, BIDI_TYPE_LRI, BIDI_TYPE_RLI,
       BIDI_TYPE_FSI, BIDI_TYPE_PDI, BIDI_TYPE_WS, BIDI_TYPE_B,
       BIDI_TYPE_S, BIDI_TYPE_L, BIDI_TYPE_ON] := by
  unfold get_char_type
  by_cases h1 : (0x0600 ≤ codepoint ∧ codepoint ≤ 0x06FF) ∨
      (0x0750 ≤ codepoint ∧ codepoint ≤ 0x077F) ∨
      (0x08A0 ≤ codepoint ∧ codepoint ≤ 0x08FF)
  · rw [if_pos h1]; decide
  rw [if_neg h1]
  by_cases h2 : 0x0590 ≤ codepoint ∧ codepoint ≤ 0x05FF
  · rw [if_pos h2]; decide
  rw [if_neg h2]
  by_cases h3 : 0x0030 ≤ codepoint ∧ codepoint ≤ 0x0039
  · rw [if_pos h3]; decide
  rw [if_neg h3]
  by_cases h4 : (0x0660 ≤ codepoint ∧ codepoint ≤ 0x0669) ∨
      (0x06F0 ≤ codepoint ∧ codepoint ≤ 0x06F9)
  · exfalso; omega
  rw [if_neg h4]
  by_cases h5 : codepoint = 0x200E
  · rw [if_pos h5]; decide
  rw [if_neg h5]
  by_cases h6 : codepoint = 0x200F
  · rw [if_pos h6]; decide
  rw [if_neg h6]
  by_cases h7 : codepoint = 0x202A
  · rw [if_pos h7]; decide
  rw [if_neg h7]
  by_cases h8 : codepoint = 0x202B
  · rw [if_pos h8]; decide
  rw [if_neg h8]
  by_cases h9 : codepoint = 0x202C
  · rw [if_pos h9]; decide
  rw [if_neg h9]
  by_cases h10 : codepoint = 0x202D
  · rw [if_pos h10]; decide
  rw [if_neg h10]
  by_cases h11 : codepoint = 0x202E
  · rw [if_pos h11]; decide
  rw [if_neg h11]
  by_cases h12 : codepoint = 0x2066
  · rw [if_pos h12]; decide
  rw [if_neg h12]
  by_cases h13 : codepoint = 0x2067
  · rw [if_pos h13]; decide
  rw [if_neg h13]
  by_cases h14 : codepoint = 0x2068
  · rw [if_pos h14]; decide
  rw [if_neg h14]
  by_cases h15 : codepoint = 0x2069
  · rw [if_pos h15]; decide
  rw [if_neg h15]
  by_cases h16 : codepoint = 0x0020 ∨ codepoint = 0x0009 ∨ codepoint = 0x00A0
  · rw [if_pos h16]; decide
  rw [if_neg h16]
  by_cases h17 : codepoint = 0x000A ∨ codepoint = 0x000D ∨ codepoint = 0x2029
  · rw [if_pos h17]; decide
  rw [if_neg h17]
  by_cases h18 : codepoint = 0x0009 ∨ codepoint = 0x001F
  · rw [if_pos h18]; decide
  rw [if_neg h18]
  by_cases h19 : codepoint < 0x0080
  · rw [if_pos h19]; decide
  rw [if_neg h19]
  decide

theorem boundary_stack (st : BidiState) (cl m n : Nat) (s : List Nat)
    (ov : Int) (iso : Bool) : (boundary st cl m n s ov iso).stack = s := rfl

theorem advance_stack (st : BidiState) (cl : Nat) :
    (advance st cl).stack = st.stack := rfl

theorem ite_le_bound (P : Prop) [Decidable P] (a b m : Nat)
    (ha : P → a ≤ m) (hb : ¬ P → b ≤ m) : (if P then a else b) ≤ m := by
  by_cases h : P
  · rw [if_pos h]
    exact ha h
  · rw [if_neg h]
    exact hb h

set_option maxHeartbeats 1000000 in
/-- Every push in the loop body is guarded by
`stack_top < MAX_DEPTH - 1`, so the stack never grows past `MAX_DEPTH`
entries (top index never past `MAX_DEPTH - 1`). -/
theorem stepChar_stack_le (cp cl : Nat) (st : BidiState)
    (h : st.stack.length ≤ MAX_DEPTH) :
    (stepChar cp cl st).stack.length ≤ MAX_DEPTH := by
  unfold MAX_DEPTH at h ⊢
  unfold stepChar MAX_DEPTH
  simp only [apply_ite BidiState.stack, boundary_stack, advance_stack]
  simp only [apply_ite List.length, List.length_cons, List.length_tail]
  repeat' (apply ite_le_bound <;> intro _)
  all_goals omega

/-- A push attempted with the stack full is skipped: only `i`
advances. -/
theorem stepChar_skip_full (cp cl : Nat) (st : BidiState)
    (ht : get_char_type cp = BIDI_TYPE_LRE)
    (hfull : ¬ st.stack.length < MAX_DEPTH) :
    stepChar cp cl st = { st with i := st.i + cl } := by
  unfold stepChar
  rw [if_pos ht, if_neg hfull]
  rfl

def isAsciiLetterCp (c : Nat) : Prop :=
  (0x41 ≤ c ∧ c ≤ 0x5A) ∨ (0x61 ≤ c ∧ c ≤ 0x7A)

instance (c : Nat) : Decidable (isAsciiLetterCp c) := by
  unfold isAsciiLetterCp
  infer_instance

/-- C5: 200 consecutive LRE characters followed by plain ASCII-letter
text still yield a positive byte count; the level stack length is an
invariant bounded by MAX_DEPTH (so the top index never exceeds its
bound); and a push attempted while the stack is full is silently
skipped, never failing the call. -/
theorem claim_C5_stack_safety (s : List Nat) (hne : s ≠ [])
    (hs : ∀ c ∈ s, isAsciiLetterCp c) :
    0 < (process_bidirectional_text
        (encodeList (List.replicate 200 0x202A ++ s))
        (encodeList (List.replicate 200 0x202A ++ s)).length false).fst ∧
    (∀ cp cl : Nat, ∀ st : BidiState, st.stack.length ≤ MAX_DEPTH →
      (stepChar cp cl st).stack.length ≤ MAX_DEPTH) ∧
    (∀ cp cl : Nat, ∀ st : BidiState, get_char_type cp = BIDI_TYPE_LRE →
      ¬ st.stack.length < MAX_DEPTH →
      stepChar cp cl st = { st with i := st.i + cl }) := by
  refine ⟨?_, fun cp cl st h => stepChar_stack_le cp cl st h,
    fun cp cl st h1 h2 => stepChar_skip_full cp cl st h1 h2⟩
  have hv : ∀ c ∈ List.replicate 200 0x202A ++ s, c < 0x110000 := by
    intro c hc
    rcases List.mem_append.mp hc with h | h
    · rw [List.eq_of_mem_replicate h]
      norm_num
    · have := hs c h
      unfold isAsciiLetterCp at this
      omega
  obtain ⟨o, h1, h2⟩ := process_bidi_perm _ false hv
  have hfilter : (List.replicate 200 0x202A ++ s).filter keptCp = s := by
    rw [List.filter_append, List.filter_replicate, if_neg (by decide)]
    have hdec : ∀ a, a < 123 → isAsciiLetterCp a → keptCp a = true := by
      decide
    rw [List.filter_eq_self.mpr
      (fun a ha => hdec a (by have := hs a ha; unfold isAsciiLetterCp at this; omega)
        (hs a ha)),
      List.nil_append]
  rw [hfilter] at h2
  have hone : o ≠ [] := by
    intro h
    rw [h] at h2
    exact hne (List.Perm.eq_nil h2.symm)
  rw [process_fst_snd, h1]
  exact encodeList_len_pos o hone

/-- C5 witness: the theorem at the plain text "a". -/
theorem claim_C5_witness :
    (([0x61] : List Nat) ≠ [] ∧ ∀ c ∈ [(0x61 : Nat)], isAsciiLetterCp c) ∧
    (0 < (process_bidirectional_text
        (encodeList (List.replicate 200 0x202A ++ [0x61]))
        (encodeList (List.replicate 200 0x202A ++ [0x61])).length false).fst ∧
    (∀ cp cl : Nat, ∀ st : BidiState, st.stack.length ≤ MAX_DEPTH →
      (stepChar cp cl st).stack.length ≤ MAX_DEPTH) ∧
    (∀ cp cl : Nat, ∀ st : BidiState, get_char_type cp = BIDI_TYPE_LRE →
      ¬ st.stack.length < MAX_DEPTH →
      stepChar cp cl st = { st with i := st.i + cl })) :=
  ⟨⟨by decide, by decide⟩,
    claim_C5_stack_safety [0x61] (by decide) (by decide)⟩

/-- C6: on well-formed UTF-8 input (the byte image of any codepoint
list), the output of `process_bidirectional_text` is the byte image of
a codepoint list that is a permutation of the non-formatting input
codepoints: none of the 9 directional-formatting code points survive
(every output codepoint passes `copyCheck`), and every input codepoint
whose type is not one of the 9 (including LRM and RLM) appears in the
output. -/
theorem claim_C6_strip_formatting (cps : List Nat) (is_rtl : Bool)
    (hv : ∀ c ∈ cps, c < 0x110000) :
    ∃ outCps : List Nat,
      (process_bidirectional_text (encodeList cps)
          (encodeList cps).length is_rtl).snd = encodeList outCps ∧
      outCps.Perm (cps.filter keptCp) ∧
      (∀ c ∈ outCps, copyCheck (get_char_type c)) := by
  obtain ⟨o, h1, h2⟩ := process_bidi_perm cps is_rtl hv
  refine ⟨o, h1, h2, fun c hc => ?_⟩
  have hmem : c ∈ cps.filter keptCp := h2.mem_iff.mp hc
  have := List.of_mem_filter hmem
  unfold keptCp at this
  exact of_decide_eq_true this

/-- C6 witness: instantiated at the two-codepoint input "A" U+202A. -/
theorem claim_C6_witness :
    (∀ c ∈ [(0x41 : Nat), 0x202A], c < 0x110000) ∧
    (∃ outCps : List Nat,
      (process_bidirectional_text (encodeList [0x41, 0x202A])
          (encodeList [0x41, 0x202A]).length false).snd = encodeList outCps ∧
      outCps.Perm ([(0x41 : Nat), 0x202A].filter keptCp) ∧
      (∀ c ∈ outCps, copyCheck (get_char_type c))) :=
  ⟨by decide, claim_C6_strip_formatting [0x41, 0x202A] false (by decide)⟩

/-- C8 counterexample: with text F0 90 80 80 and the length argument 1,
the single declared 4-byte sequence crosses the end of the declared
length, the final run covers 4 bytes, and the call returns 4 > 1. -/
theorem claim_C8_counterexample :
    (process_bidirectional_text [0xF0, 0x90, 0x80, 0x80] 1 false).fst = 4 ∧
    (1 : Nat) < 4 := by
  refine ⟨by decide, by decide⟩

/-- C8 amended: on input whose first `length` bytes are complete UTF-8
sequences (the byte image of a codepoint list, processed with its own
length), the returned byte count never exceeds the input length. -/
theorem claim_C8_amended (cps : List Nat) (is_rtl : Bool)
    (hv : ∀ c ∈ cps, c < 0x110000) :
    (process_bidirectional_text (encodeList cps)
        (encodeList cps).length is_rtl).fst ≤ (encodeList cps).length := by
  obtain ⟨o, h1, h2⟩ := process_bidi_perm cps is_rtl hv
  rw [process_fst_snd, h1]
  have hlen : (encodeList o).length =
      (encodeList (cps.filter keptCp)).length := by
    unfold encodeList
    exact (List.Perm.flatMap_right codepoint_to_utf8 h2).length_eq
  rw [hlen]
  exact encodeList_filter_le cps keptCp

/-- C8 witness: the amended theorem at the single-codepoint input "A". -/
theorem claim_C8_witness :
    (∀ c ∈ [(0x41 : Nat)], c < 0x110000) ∧
    (process_bidirectional_text (encodeList [0x41])
        (encodeList [0x41]).length false).fst ≤ (encodeList [0x41]).length :=
  ⟨by decide, claim_C8_amended [0x41] false (by decide)⟩

/-- C9: an input consisting only of codepoints that are neither strong
(L, R, AL) nor directional formatting is segmented into exactly one run
at level 0, and the output is byte-identical to the input with the full
byte count returned. -/
theorem claim_C9_neutral_identity (cps : List Nat) (hne : cps ≠ [])
    (hv : ∀ c ∈ cps, c < 0x110000 ∧
      get_char_type c ≠ BIDI_TYPE_L ∧ get_char_type c ≠ BIDI_TYPE_R ∧
      get_char_type c ≠ BIDI_TYPE_AL ∧ copyCheck (get_char_type c)) :
    process_runs (encodeList cps) (encodeList cps).length 0 =
      [⟨0, (encodeList cps).length, 0⟩] ∧
    process_bidirectional_text (encodeList cps) (encodeList cps).length
      false = ((encodeList cps).length, encodeList cps) := by
  have hv' : ∀ c ∈ cps, c < 0x110000 := fun c h => (hv c h).1
  have hlenpos := encodeList_len_pos cps hne
  have hkept : ∀ c ∈ cps, keptCp c = true := by
    intro c hc
    unfold keptCp
    exact decide_eq_true (hv c hc).2.2.2.2
  have hruns : process_runs (encodeList cps) (encodeList cps).length 0 =
      [⟨0, (encodeList cps).length, 0⟩] := by
    unfold process_runs
    show processRunsAux (encodeList cps) (encodeList cps).length
      (encodeList cps).length (gPhi ⟨[], [], 0, [0], -1, false⟩) = _
    rw [processRunsAux_eq_gfold cps ⟨[], [], 0, [0], -1, false⟩
      (encodeList cps).length (encodeList cps) (encodeList cps).length hv'
      (list_len_le_encodeList cps) (by simp [gPhi, grpBytes])
      (by simp [gPhi, grpBytes])]
    rw [gfold_neutral cps ⟨[], [], 0, [0], -1, false⟩ rfl
      (fun c hc => (hv c hc).2)]
    unfold gfinal
    dsimp only
    rw [if_neg (by simpa using hne)]
    rw [List.nil_append, toRuns_single]
    simp
  refine ⟨hruns, ?_⟩
  have hfwd : runFwd (encodeList cps) (0 + (encodeList cps).length)
      (encodeList cps).length 0 = encodeList cps := by
    rw [runFwd_spec cps (encodeList cps) 0 [] (encodeList cps).length hv'
      (list_len_le_encodeList cps) (by simp)]
    rw [List.filter_eq_self.mpr hkept]
  have hre : reorder_runs [⟨0, (encodeList cps).length, 0⟩]
      (encodeList cps) (encodeList cps).length = encodeList cps := by
    unfold reorder_runs
    rw [show ([(⟨0, (encodeList cps).length, 0⟩ : BidiRun)].foldl
        (fun m r => if m < r.level then r.level else m) 0) = 0 from rfl]
    rw [show ((List.range (0 + 1)).reverse) = [0] from rfl]
    rw [List.flatMap_cons, List.flatMap_nil, List.append_nil]
    rw [List.filter_cons_of_pos rfl, List.filter_nil, List.flatMap_cons,
      List.flatMap_nil, List.append_nil]
    unfold reorderRun
    dsimp only
    rw [if_neg (by decide)]
    exact hfwd
  unfold process_bidirectional_text
  rw [if_neg (by omega)]
  have hbase : (if false then 1 else 0) = 0 := rfl
  rw [hbase, hruns, if_neg (by simp), hre]

/-- C9 witness: instantiated at the single digit "1" (EN, neutral). -/
theorem claim_C9_witness :
    (([0x31] : List Nat) ≠ [] ∧ ∀ c ∈ [(0x31 : Nat)], c < 0x110000 ∧
      get_char_type c ≠ BIDI_TYPE_L ∧ get_char_type c ≠ BIDI_TYPE_R ∧
      get_char_type c ≠ BIDI_TYPE_AL ∧ copyCheck (get_char_type c)) ∧
    (process_runs (encodeList [0x31]) (encodeList [0x31]).length 0 =
        [⟨0, (encodeList [0x31]).length, 0⟩] ∧
      process_bidirectional_text (encodeList [0x31])
        (encodeList [0x31]).length false =
        ((encodeList [0x31]).length, encodeList [0x31])) :=
  ⟨⟨by decide, by decide⟩,
    claim_C9_neutral_identity [0x31] (by decide) (by decide)⟩

/-- C10: `get_char_type` never returns ES (3), ET (4), AN (5), CS (6)
or NSM (11), for any codepoint: no range check produces ES/ET/CS/NSM,
and the Arabic-letter range 0x0600-0x06FF precedes and contains both
Arabic-Indic digit ranges, making the AN branch unreachable. -/
theorem claim_C10_unreachable_types (codepoint : Nat) :
    get_char_type codepoint ≠ BIDI_TYPE_ES ∧
    get_char_type codepoint ≠ BIDI_TYPE_ET ∧
    get_char_type codepoint ≠ BIDI_TYPE_AN ∧
    get_char_type codepoint ≠ BIDI_TYPE_CS ∧
    get_char_type codepoint ≠ BIDI_TYPE_NSM := by
  have hmem := get_char_type_mem codepoint
  have hall : ∀ x ∈
      [BIDI_TYPE_AL, BIDI_TYPE_R, BIDI_TYPE_EN, BIDI_TYPE_LRM,
       BIDI_TYPE_RLM, BIDI_TYPE_LRE, BIDI_TYPE_RLE, BIDI_TYPE_PDF,
       BIDI_TYPE_LRO, BIDI_TYPE_RLO, BIDI_TYPE_LRI, BIDI_TYPE_RLI,
       BIDI_TYPE_FSI, BIDI_TYPE_PDI, BIDI_TYPE_WS, BIDI_TYPE_B,
       BIDI_TYPE_S, BIDI_TYPE_L, BIDI_TYPE_ON],
      x ≠ BIDI_TYPE_ES ∧ x ≠ BIDI_TYPE_ET ∧ x ≠ BIDI_TYPE_AN ∧
        x ≠ BIDI_TYPE_CS ∧ x ≠ BIDI_TYPE_NSM := by decide
  exact hall _ hmem

end ArbSh
